import Mathlib

/-
Verification of the board-recognition pipeline of the chess-analyzer
repository.  The definitions below are a shallow embedding of the Python
sources `step0.py` (board location, corner ordering, perspective step) and
`step3_advanced_recognition.py` (per-cell classification, summary counts and
FEN-string assembly).  Pixel data is modelled as natural-number grayscale
values (the sources convert every image to 8-bit grayscale before any
decision); Python float ratios are modelled exactly in ℚ.  Results of
external OpenCV calls whose internals are not part of the repository
(GaussianBlur, findContours/boundingRect, getPerspectiveTransform,
warpPerspective) are carried as explicit data or function parameters; every
decision made by the repository's own code is translated literally.
-/

-- ===== Geometry: corner ordering (step0.py, `order_points`) =====

/-- A pixel-space point (x, y).  The sources use float32 coordinates coming
from integer pixel positions, so integer coordinates model them exactly. -/
abbrev Point := ℤ × ℤ

/-- Key used by `pts.sum(axis=1)` in `order_points`: x + y. -/
def psum (p : Point) : ℤ := p.1 + p.2

/-- Key used by `np.diff(pts, axis=1)` in `order_points`: the difference
along axis 1 of a (4,2) array is column1 − column0, i.e. y − x. -/
def pdiff (p : Point) : ℤ := p.2 - p.1

/-- The element of `pts` selected by `np.argmin(key)`: the first element
attaining the minimal key (numpy returns the first index of the minimum). -/
def argminPt (key : Point → ℤ) : List Point → Point
  | [] => ((0 : ℤ), (0 : ℤ))
  | p :: rest => rest.foldl (fun best q => if key q < key best then q else best) p

/-- The element of `pts` selected by `np.argmax(key)`: the first element
attaining the maximal key. -/
def argmaxPt (key : Point → ℤ) : List Point → Point
  | [] => ((0 : ℤ), (0 : ℤ))
  | p :: rest => rest.foldl (fun best q => if key best < key q then q else best) p

/-- The canonically ordered quadrilateral `rect` built by `order_points`:
rect[0] = top-left, rect[1] = top-right, rect[2] = bottom-right,
rect[3] = bottom-left. -/
structure OrderedQuad where
  tl : Point
  tr : Point
  br : Point
  bl : Point
deriving DecidableEq

/-- step0.py lines 82-93: `rect[0] = pts[argmin(x+y)]`, `rect[2] =
pts[argmax(x+y)]`, `rect[1] = pts[argmin(y−x)]`, `rect[3] = pts[argmax(y−x)]`. -/
def order_points (pts : List Point) : OrderedQuad :=
  ⟨argminPt psum pts, argminPt pdiff pts, argmaxPt psum pts, argmaxPt pdiff pts⟩

-- ===== Board locator (step0.py, lines 51-67) =====

/-- A contour as seen by the selection loop: its enclosed area
(`cv2.contourArea`, a nonnegative float, modelled in ℚ) and the vertex count
of its polygon approximation (`len(cv2.approxPolyDP(cnt, 0.02*peri, True))`,
an external computation carried as data). -/
structure Contour where
  area : ℚ
  approxLen : ℕ
deriving DecidableEq

/-- The selection loop of step0.py lines 51-62: starting from
`board_contour = None; max_area = 0`, for each contour, if its area exceeds
the running `max_area` and its approximation has exactly 4 vertices it
becomes the current best. -/
def locateGo : List Contour → Option Contour → ℚ → Option Contour × ℚ
  | [], best, max_area => (best, max_area)
  | cnt :: rest, best, max_area =>
    if max_area < cnt.area then
      if cnt.approxLen = 4 then locateGo rest (some cnt) cnt.area
      else locateGo rest best max_area
    else locateGo rest best max_area

/-- The board contour chosen by step0.py (`None` models the fatal
"board not found" exit at lines 64-67). -/
def board_contour (contours : List Contour) : Option Contour :=
  (locateGo contours none 0).1

-- ===== Grayscale pixel helpers =====

/-- A grayscale image: rows of 8-bit pixel values (each value is ≤ 255 for
every image the sources can produce). -/
abbrev Gray := List (List ℕ)

def pixelSum (g : Gray) : ℕ := (g.map (fun row => row.sum)).sum

def pixelCount (g : Gray) : ℕ := (g.map (fun row => row.length)).sum

/-- `np.mean` over an image, exact in ℚ. -/
def meanGray (g : Gray) : ℚ := (pixelSum g : ℚ) / (pixelCount g : ℚ)

/-- `np.sum(g < t)`: the number of pixels strictly below `t`. -/
def countLt (g : Gray) (t : ℕ) : ℕ :=
  (g.map (fun row => (row.filter (fun v => v < t)).length)).sum

/-- `np.sum(g > t)`: the number of pixels strictly above `t`. -/
def countGt (g : Gray) (t : ℕ) : ℕ :=
  (g.map (fun row => (row.filter (fun v => t < v)).length)).sum

def flatPix (g : Gray) : List ℕ := g.foldr (fun row acc => row ++ acc) []

/-- `np.min` over an 8-bit image (seed 255 is the top of the uint8 range). -/
def grayMin (g : Gray) : ℕ := (flatPix g).foldr Nat.min 255

/-- `np.max` over an 8-bit image. -/
def grayMax (g : Gray) : ℕ := (flatPix g).foldr Nat.max 0

/-- `gray.shape[0] * gray.shape[1]` for a rectangular image. -/
def totalPixels (g : Gray) : ℕ := g.length * (g.headD []).length

-- ===== Cell classifier (step3_advanced_recognition.py) =====

/-- One cell's pixel data as used by the classifier: the grayscale cell
(`cvtColor(.., BGR2GRAY)`), its `GaussianBlur(gray,(5,5),0)` result (an
external library computation, carried as data), and the bounding-box
(width, height) of the largest contour returned by `cv2.findContours` on the
binarized cell (`none` when no contour is found). -/
structure CellImage where
  gray : Gray
  blurred : Gray
  contourBB : Option (ℕ × ℕ)
deriving DecidableEq

/-- Lines 26-30: a cell is "light" when its mean grayscale exceeds 127. -/
def get_cell_color (gray : Gray) : String :=
  if meanGray gray > 127 then "light" else "dark"

/-- Lines 39-44: contrast pixels are blurred pixels strictly below 80 on a
light cell, strictly above 180 on a dark cell. -/
def contrastPixels (cell : CellImage) (cell_color : String) : ℕ :=
  if cell_color = "light" then countLt cell.blurred 80 else countGt cell.blurred 180

/-- Lines 46-47: `contrast_ratio = contrast_pixels / total_pixels` where
`total_pixels = gray.shape[0] * gray.shape[1]`. -/
def contrastFrac (cell : CellImage) (cell_color : String) : ℚ :=
  (contrastPixels cell cell_color : ℚ) / (totalPixels cell.gray : ℚ)

/-- Lines 50-52: `contrast = np.max(blurred) - np.min(blurred)`. -/
def contrastSpread (cell : CellImage) : ℕ :=
  grayMax cell.blurred - grayMin cell.blurred

/-- Lines 33-57, `is_cell_empty`: the cell is empty iff the contrast-pixel
ratio is below 0.15 and the contrast spread is below 100. -/
def is_cell_empty (cell : CellImage) (cell_color : String) : Bool :=
  decide (contrastFrac cell cell_color < (3 : ℚ) / 20) &&
    decide (contrastSpread cell < 100)

/-- Lines 65-66: `gray[height//4 : 3*height//4, width//4 : 3*width//4]`. -/
def centerRegion (g : Gray) : Gray :=
  let h := g.length
  let w := (g.headD []).length
  ((g.drop (h / 4)).take (3 * h / 4 - h / 4)).map
    (fun row => (row.drop (w / 4)).take (3 * w / 4 - w / 4))

/-- Lines 60-87, `get_piece_color`: classify the occupier's color from the
mean brightness of the central region, with thresholds depending on the cell
shade; 'w' = white, 'b' = black, '?' = undetermined. -/
def get_piece_color (cell : CellImage) (cell_color : String) : Char :=
  let avg := meanGray (centerRegion cell.gray)
  if cell_color = "light" then
    if avg > 160 then 'w' else if avg < 100 then 'b' else '?'
  else
    if avg > 180 then 'w' else if avg < 140 then 'b' else '?'

/-- Lines 95-101: `fill_ratio = filled_pixels / total_pixels`, counting gray
pixels strictly below 100 on a light cell and strictly above 150 on a dark
cell. -/
def fillFrac (cell : CellImage) (cell_color : String) : ℚ :=
  ((if cell_color = "light" then countLt cell.gray 100 else countGt cell.gray 150 : ℕ) : ℚ)
    / (totalPixels cell.gray : ℚ)

/-- Line 116: `aspect_ratio = h / w if w > 0 else 0`. -/
def boxAspect (w h : ℕ) : ℚ := if 0 < w then (h : ℚ) / (w : ℚ) else 0

/-- Lines 90-131, `guess_piece_type`: the fill-ratio decision table over the
largest contour's bounding box; 'p' when no contour is found.  The
`piece_color` parameter is accepted and ignored exactly as in the source. -/
def guess_piece_type (cell : CellImage) (piece_color : Char) (cell_color : String) : Char :=
  match cell.contourBB with
  | some wh =>
    if fillFrac cell cell_color > (3 : ℚ) / 5 then
      if boxAspect wh.1 wh.2 > (6 : ℚ) / 5 then 'r' else 'q'
    else if fillFrac cell cell_color > (2 : ℚ) / 5 then 'n'
    else if fillFrac cell cell_color > (1 : ℚ) / 5 then 'b'
    else 'p'
  | none => 'p'

-- ===== The per-cell analysis loop (lines 152-193) =====

/-- One iteration's input: the cell file `cells/cell_r_c.jpg` either exists
(with its pixel data) or is missing. -/
inductive CellFile where
  | missing
  | present (cell : CellImage)
deriving DecidableEq

/-- The board label written into `board[row][col]` by one loop iteration:
'.' for an empty cell, an uppercase type letter for a white piece, a
lowercase one for a black piece, '?' for an undetermined color or a missing
cell file. -/
def analyzeLabel : CellFile → Char
  | CellFile.missing => '?'
  | CellFile.present cell =>
    let cell_color := get_cell_color cell.gray
    if is_cell_empty cell cell_color then '.'
    else
      let pc := get_piece_color cell cell_color
      let pt := guess_piece_type cell pc cell_color
      if pc = 'w' then pt.toUpper
      else if pc = 'b' then pt.toLower
      else '?'

/-- The summary counters of lines 147-149. -/
structure Counts where
  empty_count : ℕ
  white_count : ℕ
  black_count : ℕ
deriving DecidableEq

/-- Counter updates of one loop iteration: `empty_count += 1` on an empty
cell, `white_count`/`black_count` on a recognized color; an undetermined
color or a missing file increments no counter. -/
def countCell (st : Counts) : CellFile → Counts
  | CellFile.missing => st
  | CellFile.present cell =>
    let cell_color := get_cell_color cell.gray
    if is_cell_empty cell cell_color then
      ⟨st.empty_count + 1, st.white_count, st.black_count⟩
    else
      let pc := get_piece_color cell cell_color
      if pc = 'w' then ⟨st.empty_count, st.white_count + 1, st.black_count⟩
      else if pc = 'b' then ⟨st.empty_count, st.white_count, st.black_count + 1⟩
      else st

/-- The counters after the whole 8×8 loop (the cells listed row-major). -/
def analyzeCounts (cells : List CellFile) : Counts := cells.foldl countCell ⟨0, 0, 0⟩

/-- The flattened (row-major) board of labels after the whole loop. -/
def boardLabels (cells : List CellFile) : List Char := cells.map analyzeLabel

/-- The twelve legal piece letters of the output format (lines 201-203). -/
def pieceLetters : List Char := ['K', 'Q', 'R', 'B', 'N', 'P', 'k', 'q', 'r', 'b', 'n', 'p']

/-- A label that counted as a colored piece by the loop: neither the Empty
dot nor the unknown placeholder. -/
def isPieceLabel (c : Char) : Bool := !(c == '.' || c == '?')

-- ===== Position-string assembly (lines 229-250) =====

/-- Flushing the pending empty-run counter: `str(empty_count_in_row)` when
positive, nothing otherwise. -/
def fenFlush (cnt : ℕ) : List Char := if 0 < cnt then Nat.toDigits 10 cnt else []

/-- The per-rank scan of lines 231-248: '.' cells accumulate into the run
counter; any other label flushes the counter and is appended verbatim; the
trailing run is flushed at the end of the rank. -/
def fenRowGo : List Char → ℕ → List Char
  | [], cnt => fenFlush cnt
  | piece :: rest, cnt =>
    if piece = '.' then fenRowGo rest (cnt + 1)
    else fenFlush cnt ++ piece :: fenRowGo rest 0

/-- One assembled rank string (`fen_row` of the source). -/
def fen_row (cells : List Char) : List Char := fenRowGo cells 0

/-- `'/'.join(fen_rows)`. -/
def joinSlash : List (List Char) → List Char
  | [] => []
  | [row] => row
  | row :: rows => row ++ '/' :: joinSlash rows

/-- Line 250: the assembled position string. -/
def fen_position (grid : List (List Char)) : List Char := joinSlash (grid.map fen_row)

-- ===== Re-parsing (defined from the claims' own words; the repository has no parser) =====

/-- Modelled from the spec: the repository contains no position-string
parser, so the rank split on '/' is defined from the round-trip claim's own
words ("rank split on `/`"). -/
def splitSlash : List Char → List (List Char)
  | [] => [[]]
  | c :: rest =>
    if c = '/' then [] :: splitSlash rest
    else
      match splitSlash rest with
      | seg :: segs => (c :: seg) :: segs
      | [] => [[c]]

/-- Modelled from the spec: expanding run-length digits into that many empty
cells and taking every other character as a single-char piece token
("expand run-length digits, single-char tokens for pieces"). -/
def expandRank : List Char → List Char
  | [] => []
  | c :: rest =>
    (if c.isDigit then List.replicate (c.toNat - 48) '.' else [c]) ++ expandRank rest

/-- Modelled from the spec: the full re-parse of a position string. -/
def parseFen (s : List Char) : List (List Char) := (splitSlash s).map expandRank

/-- The number of board cells a rank segment encodes: each digit counts its
numeric value, every other character counts one cell. -/
def cellsEncoded (s : List Char) : ℕ :=
  (s.map (fun c => if c.isDigit then c.toNat - 48 else 1)).sum

/-- No two adjacent characters of the segment are both digits. -/
def noAdjacentDigits (s : List Char) : Prop :=
  List.Chain' (fun a b => ¬(a.isDigit = true ∧ b.isDigit = true)) s

-- ===== Perspective rectification step (step0.py lines 95-110) =====

/-- The destination square `dst` of step0.py lines 99-104. -/
def dstQuad (size : ℤ) : List Point := [(0, 0), (size, 0), (size, size), (0, size)]

/-- Lines 95-110 of step0.py: order the corners, compute the perspective
matrix, warp.  The two OpenCV calls are external library functions, passed
here as parameters; the repository's own code between them is straight-line:
it contains no conditional, no exception handler and no check on the corner
geometry, so the embedded step is total and the produced board is wrapped in
`some` (a `none` would model a surfaced rectification error; the code never
produces one). -/
def rectifyStep {Img Mat : Type} (getTransform : OrderedQuad → List Point → Mat)
    (warp : Img → Mat → ℤ × ℤ → Img) (image : Img) (pts : List Point) : Option Img :=
  let rect := order_points pts
  let M := getTransform rect (dstQuad 800)
  some (warp image M (800, 800))

-- ===== Concrete inputs used by counterexamples and witnesses =====

/-- An axis-aligned square of four corner points. -/
def rectCorners : List Point := [(0, 0), (10, 0), (10, 10), (0, 10)]

/-- Four distinct points two of which tie on x + y (sum 10). -/
def tiePoints1 : List Point := [(0, 10), (10, 0), (20, 20), (15, 16)]

/-- The same four points with the tied pair swapped. -/
def tiePoints2 : List Point := [(10, 0), (0, 10), (20, 20), (15, 16)]

/-- Four points with pairwise distinct sums and differences. -/
def permPoints1 : List Point := [(0, 0), (5, 1), (9, 8), (1, 6)]

/-- A permutation (first two swapped) of `permPoints1`. -/
def permPoints2 : List Point := [(5, 1), (0, 0), (9, 8), (1, 6)]

/-- Four collinear points (all on the line y = x): degenerate geometry. -/
def collinearPts : List Point := [(0, 0), (1, 1), (2, 2), (3, 3)]

/-- A uniform dark 1×1 cell: classified empty. -/
def cellEmptyEx : CellImage := ⟨[[0]], [[0]], none⟩

/-- A 4×4 cell of brightness 130 whose blur has high contrast: classified as
an occupied cell of undetermined color. -/
def cellUnknownEx : CellImage :=
  ⟨[[130, 130, 130, 130], [130, 130, 130, 130], [130, 130, 130, 130], [130, 130, 130, 130]],
   [[0, 0, 0, 0], [0, 0, 0, 0], [255, 255, 255, 255], [255, 255, 255, 255]], none⟩

/-- A high-fill cell with a tall 1×2 bounding box. -/
def cellTypeEx : CellImage := ⟨[[0]], [[0]], some (1, 2)⟩

/-- 64 cell files one of which classifies to the unknown placeholder. -/
def exCells : List CellFile :=
  List.replicate 63 (CellFile.present cellEmptyEx) ++ [CellFile.present cellUnknownEx]

/-- 64 cell files all of which classify empty. -/
def fullEmptyCells : List CellFile := List.replicate 64 (CellFile.present cellEmptyEx)

/-- The starting-position board grid. -/
def startGrid : List (List Char) :=
  [['r', 'n', 'b', 'q', 'k', 'b', 'n', 'r'],
   List.replicate 8 'p',
   List.replicate 8 '.', List.replicate 8 '.',
   List.replicate 8 '.', List.replicate 8 '.',
   List.replicate 8 'P',
   ['R', 'N', 'B', 'Q', 'K', 'B', 'N', 'R']]

/-- An 8×8 grid containing the unknown placeholder. -/
def qGrid : List (List Char) :=
  [['?', '.', '.', '.', '.', '.', '.', '.']] ++ List.replicate 7 (List.replicate 8 '.')

-- ===== Helper lemmas: first-occurrence minima and maxima =====

theorem foldlMin_mem (key : Point → ℤ) (rest : List Point) (best : Point) :
    rest.foldl (fun b q => if key q < key b then q else b) best ∈ best :: rest := by
  induction rest generalizing best with
  | nil => simp
  | cons r rs ih =>
    simp only [List.foldl_cons]
    by_cases h : key r < key best
    · rw [if_pos h]
      exact List.mem_cons_of_mem best (ih r)
    · rw [if_neg h]
      rcases List.mem_cons.1 (ih best) with h1 | h1
      · rw [h1]; exact List.mem_cons_self _ _
      · exact List.mem_cons_of_mem _ (List.mem_cons_of_mem _ h1)

theorem foldlMin_le (key : Point → ℤ) (rest : List Point) (best : Point) :
    key (rest.foldl (fun b q => if key q < key b then q else b) best) ≤ key best ∧
      ∀ q ∈ rest, key (rest.foldl (fun b q => if key q < key b then q else b) best) ≤ key q := by
  induction rest generalizing best with
  | nil => exact ⟨le_refl _, by simp⟩
  | cons r rs ih =>
    simp only [List.foldl_cons]
    by_cases h : key r < key best
    · rw [if_pos h]
      obtain ⟨h1, h2⟩ := ih r
      refine ⟨h1.trans h.le, ?_⟩
      intro q hq
      rcases List.mem_cons.1 hq with rfl | hq'
      · exact h1
      · exact h2 q hq'
    · rw [if_neg h]
      obtain ⟨h1, h2⟩ := ih best
      refine ⟨h1, ?_⟩
      intro q hq
      rcases List.mem_cons.1 hq with rfl | hq'
      · exact h1.trans (not_lt.1 h)
      · exact h2 q hq'

theorem foldlMax_mem (key : Point → ℤ) (rest : List Point) (best : Point) :
    rest.foldl (fun b q => if key b < key q then q else b) best ∈ best :: rest := by
  induction rest generalizing best with
  | nil => simp
  | cons r rs ih =>
    simp only [List.foldl_cons]
    by_cases h : key best < key r
    · rw [if_pos h]
      exact List.mem_cons_of_mem best (ih r)
    · rw [if_neg h]
      rcases List.mem_cons.1 (ih best) with h1 | h1
      · rw [h1]; exact List.mem_cons_self _ _
      · exact List.mem_cons_of_mem _ (List.mem_cons_of_mem _ h1)

theorem foldlMax_le (key : Point → ℤ) (rest : List Point) (best : Point) :
    key best ≤ key (rest.foldl (fun b q => if key b < key q then q else b) best) ∧
      ∀ q ∈ rest, key q ≤ key (rest.foldl (fun b q => if key b < key q then q else b) best) := by
  induction rest generalizing best with
  | nil => exact ⟨le_refl _, by simp⟩
  | cons r rs ih =>
    simp only [List.foldl_cons]
    by_cases h : key best < key r
    · rw [if_pos h]
      obtain ⟨h1, h2⟩ := ih r
      refine ⟨h.le.trans h1, ?_⟩
      intro q hq
      rcases List.mem_cons.1 hq with rfl | hq'
      · exact h1
      · exact h2 q hq'
    · rw [if_neg h]
      obtain ⟨h1, h2⟩ := ih best
      refine ⟨h1, ?_⟩
      intro q hq
      rcases List.mem_cons.1 hq with rfl | hq'
      · exact (not_lt.1 h).trans h1
      · exact h2 q hq'

theorem argminPt_mem (key : Point → ℤ) (pts : List Point) (h : pts ≠ []) :
    argminPt key pts ∈ pts := by
  cases pts with
  | nil => exact absurd rfl h
  | cons p rest => exact foldlMin_mem key rest p

theorem argminPt_le (key : Point → ℤ) (pts : List Point) :
    ∀ q ∈ pts, key (argminPt key pts) ≤ key q := by
  cases pts with
  | nil => simp
  | cons p rest =>
    intro q hq
    rcases List.mem_cons.1 hq with rfl | hq'
    · exact (foldlMin_le key rest q).1
    · exact (foldlMin_le key rest p).2 q hq'

theorem argmaxPt_mem (key : Point → ℤ) (pts : List Point) (h : pts ≠ []) :
    argmaxPt key pts ∈ pts := by
  cases pts with
  | nil => exact absurd rfl h
  | cons p rest => exact foldlMax_mem key rest p

theorem argmaxPt_le (key : Point → ℤ) (pts : List Point) :
    ∀ q ∈ pts, key q ≤ key (argmaxPt key pts) := by
  cases pts with
  | nil => simp
  | cons p rest =>
    intro q hq
    rcases List.mem_cons.1 hq with rfl | hq'
    · exact (foldlMax_le key rest q).1
    · exact (foldlMax_le key rest p).2 q hq'

theorem argminPt_eq_of_perm (key : Point → ℤ) {l1 l2 : List Point} (hp : l1.Perm l2)
    (hn : (l1.map key).Nodup) (h1 : l1 ≠ []) : argminPt key l1 = argminPt key l2 := by
  have h2 : l2 ≠ [] := by
    intro h
    rw [h] at hp
    exact h1 (List.perm_nil.1 hp)
  have m1 := argminPt_mem key l1 h1
  have m2 := argminPt_mem key l2 h2
  have m2' : argminPt key l2 ∈ l1 := hp.mem_iff.2 m2
  have m1' : argminPt key l1 ∈ l2 := hp.mem_iff.1 m1
  have a := argminPt_le key l1 _ m2'
  have b := argminPt_le key l2 _ m1'
  exact List.inj_on_of_nodup_map hn m1 m2' (le_antisymm a b)

theorem argmaxPt_eq_of_perm (key : Point → ℤ) {l1 l2 : List Point} (hp : l1.Perm l2)
    (hn : (l1.map key).Nodup) (h1 : l1 ≠ []) : argmaxPt key l1 = argmaxPt key l2 := by
  have h2 : l2 ≠ [] := by
    intro h
    rw [h] at hp
    exact h1 (List.perm_nil.1 hp)
  have m1 := argmaxPt_mem key l1 h1
  have m2 := argmaxPt_mem key l2 h2
  have m2' : argmaxPt key l2 ∈ l1 := hp.mem_iff.2 m2
  have m1' : argmaxPt key l1 ∈ l2 := hp.mem_iff.1 m1
  have a := argmaxPt_le key l1 _ m2'
  have b := argmaxPt_le key l2 _ m1'
  exact List.inj_on_of_nodup_map hn m1 m2' (le_antisymm b a)

/-- C3: the claim assigns top-right = the point with minimum (x−y), but the
code takes `argmin` of `np.diff` = y−x, which is the point with maximum
(x−y): on an axis-aligned square the code's top-right is (10,0) although the
list contains (0,10), whose x−y is strictly smaller. -/
theorem C3_counterexample :
    (order_points rectCorners).tr = ((10 : ℤ), (0 : ℤ)) ∧
      ¬ (∀ q ∈ rectCorners,
        (order_points rectCorners).tr.1 - (order_points rectCorners).tr.2 ≤ q.1 - q.2) := by
  decide

/-- C3 (amended): corner canonicalization assigns top-left = the point with
minimum x+y, bottom-right = maximum x+y, top-right = the point with minimum
y−x (equivalently maximum x−y), and bottom-left = maximum y−x (equivalently
minimum x−y), each taken at its first occurrence on ties. -/
theorem C3_order_amended (pts : List Point) (h : pts ≠ []) :
    ((order_points pts).tl ∈ pts ∧ ∀ q ∈ pts, psum (order_points pts).tl ≤ psum q) ∧
      ((order_points pts).br ∈ pts ∧ ∀ q ∈ pts, psum q ≤ psum (order_points pts).br) ∧
      ((order_points pts).tr ∈ pts ∧ ∀ q ∈ pts, pdiff (order_points pts).tr ≤ pdiff q) ∧
      ((order_points pts).bl ∈ pts ∧ ∀ q ∈ pts, pdiff q ≤ pdiff (order_points pts).bl) := by
  simp only [order_points]
  exact ⟨⟨argminPt_mem psum pts h, argminPt_le psum pts⟩,
    ⟨argmaxPt_mem psum pts h, argmaxPt_le psum pts⟩,
    ⟨argminPt_mem pdiff pts h, argminPt_le pdiff pts⟩,
    ⟨argmaxPt_mem pdiff pts h, argmaxPt_le pdiff pts⟩⟩

/-- C3 witness: the amended canonicalization rule evaluated on an
axis-aligned square. -/
theorem C3_order_amended_witness :
    rectCorners ≠ [] ∧
      (((order_points rectCorners).tl ∈ rectCorners ∧
          ∀ q ∈ rectCorners, psum (order_points rectCorners).tl ≤ psum q) ∧
        ((order_points rectCorners).br ∈ rectCorners ∧
          ∀ q ∈ rectCorners, psum q ≤ psum (order_points rectCorners).br) ∧
        ((order_points rectCorners).tr ∈ rectCorners ∧
          ∀ q ∈ rectCorners, pdiff (order_points rectCorners).tr ≤ pdiff q) ∧
        ((order_points rectCorners).bl ∈ rectCorners ∧
          ∀ q ∈ rectCorners, pdiff q ≤ pdiff (order_points rectCorners).bl)) :=
  ⟨by decide, C3_order_amended rectCorners (by decide)⟩

/-- C8: corner canonicalization is not invariant under permutations of the
input when two points tie on x+y: `np.argmin` takes the first occurrence, so
swapping the tied pair changes the assigned top-left corner. -/
theorem C8_counterexample :
    tiePoints1.Perm tiePoints2 ∧ order_points tiePoints1 ≠ order_points tiePoints2 := by
  constructor
  · unfold tiePoints1 tiePoints2
    exact List.Perm.swap _ _ _
  · decide

/-- C8 (amended): corner canonicalization is invariant under permutations of
the 4 detected points provided the x+y values are pairwise distinct and the
y−x values are pairwise distinct (no argmin/argmax ties). -/
theorem C8_perm_amended (l1 l2 : List Point) (hp : l1.Perm l2)
    (hs : (l1.map psum).Nodup) (hd : (l1.map pdiff).Nodup) :
    order_points l1 = order_points l2 := by
  by_cases h1 : l1 = []
  · subst h1
    have h2 : l2 = [] := List.perm_nil.1 hp.symm
    subst h2
    rfl
  · simp only [order_points, OrderedQuad.mk.injEq]
    exact ⟨argminPt_eq_of_perm psum hp hs h1, argminPt_eq_of_perm pdiff hp hd h1,
      argmaxPt_eq_of_perm psum hp hs h1, argmaxPt_eq_of_perm pdiff hp hd h1⟩

/-- C8 witness: permutation invariance on four points with distinct sums and
differences. -/
theorem C8_perm_amended_witness :
    permPoints1.Perm permPoints2 ∧ (permPoints1.map psum).Nodup ∧
      (permPoints1.map pdiff).Nodup ∧ order_points permPoints1 = order_points permPoints2 := by
  have hp : permPoints1.Perm permPoints2 := by
    unfold permPoints1 permPoints2
    exact List.Perm.swap _ _ _
  exact ⟨hp, by decide, by decide, C8_perm_amended _ _ hp (by decide) (by decide)⟩

-- ===== Helper lemmas: the contour-selection loop =====

theorem locateGo_spec (cs : List Contour) : ∀ (best : Option Contour) (m : ℚ),
    ((locateGo cs best m).1 = best ∧ (locateGo cs best m).2 = m ∨
      ∃ b ∈ cs, (locateGo cs best m).1 = some b ∧ (locateGo cs best m).2 = b.area ∧
        b.approxLen = 4 ∧ m < b.area) ∧
    m ≤ (locateGo cs best m).2 ∧
    ∀ c ∈ cs, c.approxLen = 4 → c.area ≤ (locateGo cs best m).2 := by
  induction cs with
  | nil => intro best m; simp [locateGo]
  | cons c rest ih =>
    intro best m
    simp only [locateGo]
    by_cases h1 : m < c.area
    · rw [if_pos h1]
      by_cases h2 : c.approxLen = 4
      · rw [if_pos h2]
        obtain ⟨hd, hm, hb⟩ := ih (some c) c.area
        refine ⟨?_, (h1.trans_le hm).le, ?_⟩
        · rcases hd with ⟨e1, e2⟩ | ⟨b, hbmem, e1, e2, e3, e4⟩
          · exact Or.inr ⟨c, List.mem_cons_self _ _, e1, e2, h2, h1⟩
          · exact Or.inr ⟨b, List.mem_cons_of_mem _ hbmem, e1, e2, e3, h1.trans e4⟩
        · intro x hx hx4
          rcases List.mem_cons.1 hx with rfl | hx'
          · exact hm
          · exact hb x hx' hx4
      · rw [if_neg h2]
        obtain ⟨hd, hm, hb⟩ := ih best m
        refine ⟨?_, hm, ?_⟩
        · rcases hd with he | ⟨b, hbmem, hrest⟩
          · exact Or.inl he
          · exact Or.inr ⟨b, List.mem_cons_of_mem _ hbmem, hrest⟩
        · intro x hx hx4
          rcases List.mem_cons.1 hx with rfl | hx'
          · exact absurd hx4 h2
          · exact hb x hx' hx4
    · rw [if_neg h1]
      obtain ⟨hd, hm, hb⟩ := ih best m
      refine ⟨?_, hm, ?_⟩
      · rcases hd with he | ⟨b, hbmem, hrest⟩
        · exact Or.inl he
        · exact Or.inr ⟨b, List.mem_cons_of_mem _ hbmem, hrest⟩
      · intro x hx hx4
        rcases List.mem_cons.1 hx with rfl | hx'
        · exact (not_lt.1 h1).trans hm
        · exact hb x hx' hx4

theorem locateGo_isSome (cs : List Contour) : ∀ (b : Contour) (m : ℚ),
    (locateGo cs (some b) m).1.isSome = true := by
  induction cs with
  | nil => intro b m; simp [locateGo]
  | cons c rest ih =>
    intro b m
    simp only [locateGo]
    by_cases h1 : m < c.area
    · rw [if_pos h1]
      by_cases h2 : c.approxLen = 4
      · rw [if_pos h2]; exact ih c c.area
      · rw [if_neg h2]; exact ih b m
    · rw [if_neg h1]; exact ih b m

theorem locateGo_progress (cs : List Contour) : ∀ (best : Option Contour) (m : ℚ) (c : Contour),
    c ∈ cs → c.approxLen = 4 → m < c.area → (locateGo cs best m).1.isSome = true := by
  induction cs with
  | nil => intro best m c hc; simp at hc
  | cons d rest ih =>
    intro best m c hc h4 hlt
    simp only [locateGo]
    by_cases h1 : m < d.area
    · rw [if_pos h1]
      by_cases h2 : d.approxLen = 4
      · rw [if_pos h2]; exact locateGo_isSome rest d d.area
      · rw [if_neg h2]
        rcases List.mem_cons.1 hc with rfl | hc'
        · exact absurd h4 h2
        · exact ih best m c hc' h4 hlt
    · rw [if_neg h1]
      rcases List.mem_cons.1 hc with rfl | hc'
      · exact absurd hlt h1
      · exact ih best m c hc' h4 hlt

/-- C4: on an area tie between two qualifying 4-vertex contours the loop
keeps the first one instead of reporting NotFound, and a 4-vertex contour of
zero area is never selected even when it is the only qualifying one. -/
theorem C4_counterexample :
    board_contour [⟨0, 4⟩, ⟨7, 4⟩, ⟨7, 4⟩] = some ⟨7, 4⟩ ∧
      board_contour [⟨0, 4⟩] = none := by
  constructor <;> decide

/-- C4 (amended): the locator returns a contour with a 4-vertex
approximation and positive area whose area is maximal among all 4-vertex
contours (the first such contour in iteration order on ties), and it returns
NotFound exactly when no contour has both a 4-vertex approximation and
positive area. -/
theorem C4_locator_amended (cs : List Contour) :
    (∀ b, board_contour cs = some b →
      b ∈ cs ∧ b.approxLen = 4 ∧ 0 < b.area ∧
        ∀ c ∈ cs, c.approxLen = 4 → c.area ≤ b.area) ∧
    (board_contour cs = none ↔ ∀ c ∈ cs, ¬(c.approxLen = 4 ∧ 0 < c.area)) := by
  obtain ⟨hd, hm, hb⟩ := locateGo_spec cs none 0
  constructor
  · intro b hsome
    unfold board_contour at hsome
    rcases hd with ⟨e1, _⟩ | ⟨b', hbmem, e1, e2, e3, e4⟩
    · rw [e1] at hsome; cases hsome
    · rw [e1] at hsome
      injection hsome with hbb
      subst hbb
      refine ⟨hbmem, e3, e4, ?_⟩
      intro c hc h4
      have := hb c hc h4
      rw [e2] at this
      exact this
  · constructor
    · intro hnone c hc hq
      have hsome := locateGo_progress cs none 0 c hc hq.1 hq.2
      unfold board_contour at hnone
      rw [hnone] at hsome
      cases hsome
    · intro hall
      rcases hd with ⟨e1, _⟩ | ⟨b, hbmem, e1, e2, e3, e4⟩
      · unfold board_contour
        rw [e1]
      · exact absurd ⟨e3, e4⟩ (hall b hbmem)

/-- C4 witness: the amended locator contract evaluated on a single
qualifying contour. -/
theorem C4_locator_amended_witness :
    (⟨7, 4⟩ : Contour) ∈ ([⟨0, 4⟩, ⟨7, 4⟩, ⟨7, 4⟩] : List Contour) ∧
      (⟨7, 4⟩ : Contour).approxLen = 4 ∧ 0 < (⟨7, 4⟩ : Contour).area ∧
      ∀ c ∈ ([⟨0, 4⟩, ⟨7, 4⟩, ⟨7, 4⟩] : List Contour),
        c.approxLen = 4 → c.area ≤ (⟨7, 4⟩ : Contour).area :=
  (C4_locator_amended [⟨0, 4⟩, ⟨7, 4⟩, ⟨7, 4⟩]).1 ⟨7, 4⟩ (by decide)

-- ===== Helper lemmas: position-string assembly and re-parsing =====

theorem fenFlush_small : ∀ cnt, cnt < 10 →
    fenFlush cnt = [] ∨ fenFlush cnt = [Nat.digitChar cnt] := by decide

theorem expand_flush : ∀ cnt, cnt < 10 →
    expandRank (fenFlush cnt) = List.replicate cnt '.' := by decide

theorem encoded_flush : ∀ cnt, cnt < 10 → cellsEncoded (fenFlush cnt) = cnt := by decide

theorem flush_chars : ∀ cnt, cnt < 10 →
    ∀ c ∈ fenFlush cnt, c.isDigit = true ∧ c ≠ '/' ∧ c ≠ '?' := by decide

theorem expandRank_append (a b : List Char) :
    expandRank (a ++ b) = expandRank a ++ expandRank b := by
  induction a with
  | nil => simp [expandRank]
  | cons c rest ih => simp [expandRank, ih, List.append_assoc]

theorem mapCongrOn {α β : Type} (l : List α) (f g : α → β) (h : ∀ a ∈ l, f a = g a) :
    l.map f = l.map g := by
  induction l with
  | nil => rfl
  | cons a rest ih =>
    simp only [List.map_cons]
    rw [h a (List.mem_cons_self _ _), ih (fun x hx => h x (List.mem_cons_of_mem _ hx))]

theorem fenRowGo_expand : ∀ (cells : List Char) (cnt : ℕ), cnt + cells.length ≤ 9 →
    (∀ c ∈ cells, c.isDigit = false) →
    expandRank (fenRowGo cells cnt) = List.replicate cnt '.' ++ cells := by
  intro cells
  induction cells with
  | nil =>
    intro cnt h9 _
    simp only [fenRowGo]
    rw [expand_flush cnt (by simp only [List.length_nil, Nat.add_zero] at h9; omega)]
    simp
  | cons p rest ih =>
    intro cnt h9 hall
    simp only [List.length_cons] at h9
    simp only [fenRowGo]
    by_cases hp : p = '.'
    · rw [if_pos hp]
      rw [ih (cnt + 1) (by omega) (fun c hc => hall c (List.mem_cons_of_mem _ hc))]
      subst hp
      rw [List.replicate_succ', List.append_assoc]
      simp
    · rw [if_neg hp]
      rw [expandRank_append, expand_flush cnt (by omega)]
      have hpd : p.isDigit = false := hall p (List.mem_cons_self _ _)
      simp only [expandRank, hpd]
      rw [ih 0 (by omega) (fun c hc => hall c (List.mem_cons_of_mem _ hc))]
      simp

theorem fenRowGo_noSlash : ∀ (cells : List Char) (cnt : ℕ), cnt + cells.length ≤ 9 →
    (∀ c ∈ cells, c ≠ '/') → ∀ c ∈ fenRowGo cells cnt, c ≠ '/' := by
  intro cells
  induction cells with
  | nil =>
    intro cnt h9 _ c hc
    exact (flush_chars cnt (by simp only [List.length_nil, Nat.add_zero] at h9; omega) c hc).2.1
  | cons p rest ih =>
    intro cnt h9 hall c hc
    simp only [List.length_cons] at h9
    simp only [fenRowGo] at hc
    by_cases hp : p = '.'
    · rw [if_pos hp] at hc
      exact ih (cnt + 1) (by omega) (fun x hx => hall x (List.mem_cons_of_mem _ hx)) c hc
    · rw [if_neg hp] at hc
      rcases List.mem_append.1 hc with hc' | hc'
      · exact (flush_chars cnt (by omega) c hc').2.1
      · rcases List.mem_cons.1 hc' with rfl | hc''
        · exact hall c (List.mem_cons_self _ _)
        · exact ih 0 (by omega) (fun x hx => hall x (List.mem_cons_of_mem _ hx)) c hc''

theorem fenRowGo_encoded : ∀ (cells : List Char) (cnt : ℕ), cnt + cells.length ≤ 9 →
    (∀ c ∈ cells, c.isDigit = false) →
    cellsEncoded (fenRowGo cells cnt) = cnt + cells.length := by
  intro cells
  induction cells with
  | nil =>
    intro cnt h9 _
    simp only [fenRowGo, List.length_nil]
    rw [encoded_flush cnt (by simp only [List.length_nil, Nat.add_zero] at h9; omega)]
    omega
  | cons p rest ih =>
    intro cnt h9 hall
    simp only [List.length_cons] at h9 ⊢
    simp only [fenRowGo]
    by_cases hp : p = '.'
    · rw [if_pos hp]
      rw [ih (cnt + 1) (by omega) (fun c hc => hall c (List.mem_cons_of_mem _ hc))]
      omega
    · rw [if_neg hp]
      have hpd : p.isDigit = false := hall p (List.mem_cons_self _ _)
      have h1 : cellsEncoded (fenFlush cnt ++ p :: fenRowGo rest 0) =
          cellsEncoded (fenFlush cnt) + cellsEncoded (p :: fenRowGo rest 0) := by
        simp [cellsEncoded, List.map_append, List.sum_append]
      rw [h1, encoded_flush cnt (by omega)]
      have h2 : cellsEncoded (p :: fenRowGo rest 0) = 1 + cellsEncoded (fenRowGo rest 0) := by
        simp [cellsEncoded, hpd]
      rw [h2, ih 0 (by omega) (fun c hc => hall c (List.mem_cons_of_mem _ hc))]
      omega

theorem fenRowGo_count : ∀ (cells : List Char) (cnt : ℕ), cnt + cells.length ≤ 9 →
    (fenRowGo cells cnt).count '?' = cells.count '?' := by
  intro cells
  induction cells with
  | nil =>
    intro cnt h9
    simp only [fenRowGo, List.count_nil]
    rw [List.count_eq_zero]
    intro hmem
    exact (flush_chars cnt (by simp only [List.length_nil, Nat.add_zero] at h9; omega) '?' hmem).2.2 rfl
  | cons p rest ih =>
    intro cnt h9
    simp only [List.length_cons] at h9
    simp only [fenRowGo]
    by_cases hp : p = '.'
    · rw [if_pos hp]
      rw [ih (cnt + 1) (by omega)]
      subst hp
      simp [List.count_cons]
    · rw [if_neg hp]
      have hf : (fenFlush cnt).count '?' = 0 := by
        rw [List.count_eq_zero]
        intro hmem
        exact (flush_chars cnt (by omega) '?' hmem).2.2 rfl
      rw [List.count_append, hf]
      simp only [List.count_cons]
      rw [ih 0 (by omega)]
      omega

theorem fenRowGo_chain : ∀ (cells : List Char) (cnt : ℕ), cnt + cells.length ≤ 9 →
    (∀ c ∈ cells, c.isDigit = false) → noAdjacentDigits (fenRowGo cells cnt) := by
  intro cells
  induction cells with
  | nil =>
    intro cnt h9 _
    simp only [fenRowGo]
    rcases fenFlush_small cnt (by simp only [List.length_nil, Nat.add_zero] at h9; omega) with h | h <;> rw [h]
    · exact List.chain'_nil
    · exact List.chain'_singleton _
  | cons p rest ih =>
    intro cnt h9 hall
    simp only [List.length_cons] at h9
    simp only [fenRowGo]
    by_cases hp : p = '.'
    · rw [if_pos hp]
      exact ih (cnt + 1) (by omega) (fun c hc => hall c (List.mem_cons_of_mem _ hc))
    · rw [if_neg hp]
      have hpd : p.isDigit = false := hall p (List.mem_cons_self _ _)
      have htail : noAdjacentDigits (p :: fenRowGo rest 0) := by
        rw [noAdjacentDigits, List.chain'_cons']
        refine ⟨?_, ih 0 (by omega) (fun c hc => hall c (List.mem_cons_of_mem _ hc))⟩
        intro b _ hb
        rw [hpd] at hb
        exact Bool.false_ne_true hb.1
      rcases fenFlush_small cnt (by omega) with h | h <;> rw [h]
      · simpa using htail
      · rw [noAdjacentDigits, List.singleton_append, List.chain'_cons]
        refine ⟨?_, htail⟩
        intro hb
        rw [hpd] at hb
        exact Bool.false_ne_true hb.2

theorem split_noSlash : ∀ (r : List Char), (∀ c ∈ r, c ≠ '/') → splitSlash r = [r] := by
  intro r
  induction r with
  | nil => intro _; rfl
  | cons c rest ih =>
    intro hall
    have hc : c ≠ '/' := hall c (List.mem_cons_self _ _)
    simp only [splitSlash, if_neg hc]
    rw [ih (fun x hx => hall x (List.mem_cons_of_mem _ hx))]

theorem split_append : ∀ (r s : List Char), (∀ c ∈ r, c ≠ '/') →
    splitSlash (r ++ '/' :: s) = r :: splitSlash s := by
  intro r
  induction r with
  | nil =>
    intro s _
    simp [splitSlash]
  | cons c rest ih =>
    intro s hall
    have hc : c ≠ '/' := hall c (List.mem_cons_self _ _)
    simp only [List.cons_append, splitSlash, if_neg hc, List.append_eq]
    rw [ih s (fun x hx => hall x (List.mem_cons_of_mem _ hx))]

theorem join_split : ∀ (rows : List (List Char)), rows ≠ [] →
    (∀ r ∈ rows, ∀ c ∈ r, c ≠ '/') → splitSlash (joinSlash rows) = rows := by
  intro rows
  induction rows with
  | nil => intro h _; exact absurd rfl h
  | cons r rest ih =>
    intro _ hall
    cases rest with
    | nil =>
      show splitSlash (joinSlash [r]) = [r]
      simp only [joinSlash]
      exact split_noSlash r (hall r (List.mem_cons_self _ _))
    | cons r2 rs =>
      show splitSlash (joinSlash (r :: r2 :: rs)) = r :: r2 :: rs
      have hj : joinSlash (r :: r2 :: rs) = r ++ '/' :: joinSlash (r2 :: rs) := rfl
      rw [hj, split_append r _ (hall r (List.mem_cons_self _ _))]
      rw [ih (by simp) (fun x hx => hall x (List.mem_cons_of_mem _ hx))]

theorem joinSlash_count : ∀ (rows : List (List Char)),
    (joinSlash rows).count '?' = (rows.map (fun r => r.count '?')).sum := by
  intro rows
  induction rows with
  | nil => rfl
  | cons r rest ih =>
    cases rest with
    | nil => simp [joinSlash]
    | cons r2 rs =>
      have hj : joinSlash (r :: r2 :: rs) = r ++ '/' :: joinSlash (r2 :: rs) := rfl
      rw [hj, List.count_append]
      simp only [List.count_cons] at *
      simp only [List.map_cons, List.sum_cons] at *
      rw [← ih]
      simp [List.count_cons]

/-- Characters allowed by the round-trip claim are neither digits nor the
rank delimiter. -/
theorem entryFacts : ∀ c : Char, c = '.' ∨ c ∈ pieceLetters ∨ c = '?' →
    c.isDigit = false ∧ c ≠ '/' := by
  intro c h
  rcases h with rfl | h | rfl
  · decide
  · exact (by decide : ∀ x ∈ pieceLetters, x.isDigit = false ∧ x ≠ '/') c h
  · decide

/-- C2: for an 8×8 grid whose labels are Empty ('.') or case-coded piece
letters, re-parsing the assembled position string (split on '/', expand
run-length digits, take single-char piece tokens) reconstructs the original
grid exactly. -/
theorem C2_roundtrip (grid : List (List Char)) (hlen : grid.length = 8)
    (hrow : ∀ r ∈ grid, r.length = 8)
    (hc : ∀ r ∈ grid, ∀ c ∈ r, c = '.' ∨ c ∈ pieceLetters) :
    parseFen (fen_position grid) = grid := by
  have hne : grid ≠ [] := by
    intro h
    rw [h] at hlen
    simp at hlen
  have hfacts : ∀ r ∈ grid, ∀ c ∈ r, c.isDigit = false ∧ c ≠ '/' := by
    intro r hr c hcm
    rcases hc r hr c hcm with h | h
    · exact entryFacts c (Or.inl h)
    · exact entryFacts c (Or.inr (Or.inl h))
  have hnos : ∀ fr ∈ grid.map fen_row, ∀ c ∈ fr, c ≠ '/' := by
    intro fr hfr
    obtain ⟨r, hr, rfl⟩ := List.mem_map.1 hfr
    exact fenRowGo_noSlash r 0 (by rw [hrow r hr]; omega) (fun c hcm => (hfacts r hr c hcm).2)
  have hmapne : grid.map fen_row ≠ [] := by
    intro h
    exact hne (List.map_eq_nil_iff.1 h)
  unfold parseFen fen_position
  rw [join_split (grid.map fen_row) hmapne hnos, List.map_map]
  have hrt : ∀ r ∈ grid, expandRank (fen_row r) = r := by
    intro r hr
    have := fenRowGo_expand r 0 (by rw [hrow r hr]; omega) (fun c hcm => (hfacts r hr c hcm).1)
    simpa [fen_row] using this
  calc grid.map (expandRank ∘ fen_row) = grid.map id := by
        apply mapCongrOn
        intro r hr
        simpa using hrt r hr
    _ = grid := List.map_id grid

/-- C2 witness: the round-trip on the starting-position grid. -/
theorem C2_roundtrip_witness :
    startGrid.length = 8 ∧ (∀ r ∈ startGrid, r.length = 8) ∧
      (∀ r ∈ startGrid, ∀ c ∈ r, c = '.' ∨ c ∈ pieceLetters) ∧
      parseFen (fen_position startGrid) = startGrid :=
  ⟨by decide, by decide, by decide,
    C2_roundtrip startGrid (by decide) (by decide) (by decide)⟩

/-- C10: each '/'-separated rank segment of the assembled position string
encodes exactly 8 cells (digit values plus non-digit characters sum to 8)
and never contains two adjacent digit characters, for every 8×8 grid over
'.', piece letters and '?'. -/
theorem C10_rank_encoding (grid : List (List Char)) (h0 : grid ≠ [])
    (hrow : ∀ r ∈ grid, r.length = 8)
    (hc : ∀ r ∈ grid, ∀ c ∈ r, c = '.' ∨ c ∈ pieceLetters ∨ c = '?') :
    ∀ seg ∈ splitSlash (fen_position grid), cellsEncoded seg = 8 ∧ noAdjacentDigits seg := by
  have hfacts : ∀ r ∈ grid, ∀ c ∈ r, c.isDigit = false ∧ c ≠ '/' :=
    fun r hr c hcm => entryFacts c (hc r hr c hcm)
  have hnos : ∀ fr ∈ grid.map fen_row, ∀ c ∈ fr, c ≠ '/' := by
    intro fr hfr
    obtain ⟨r, hr, rfl⟩ := List.mem_map.1 hfr
    exact fenRowGo_noSlash r 0 (by rw [hrow r hr]; omega) (fun c hcm => (hfacts r hr c hcm).2)
  have hmapne : grid.map fen_row ≠ [] := by
    intro h
    exact h0 (List.map_eq_nil_iff.1 h)
  unfold fen_position
  rw [join_split (grid.map fen_row) hmapne hnos]
  intro seg hseg
  obtain ⟨r, hr, rfl⟩ := List.mem_map.1 hseg
  constructor
  · simp only [fen_row]
    rw [fenRowGo_encoded r 0 (by rw [hrow r hr]; omega) (fun c hcm => (hfacts r hr c hcm).1),
      hrow r hr]
  · exact fenRowGo_chain r 0 (by rw [hrow r hr]; omega) (fun c hcm => (hfacts r hr c hcm).1)

/-- C10 witness: the rank-segment properties on an 8×8 grid containing the
unknown placeholder. -/
theorem C10_rank_encoding_witness :
    qGrid ≠ [] ∧ (∀ r ∈ qGrid, r.length = 8) ∧
      (∀ r ∈ qGrid, ∀ c ∈ r, c = '.' ∨ c ∈ pieceLetters ∨ c = '?') ∧
      ∀ seg ∈ splitSlash (fen_position qGrid), cellsEncoded seg = 8 ∧ noAdjacentDigits seg :=
  ⟨by decide, by decide, by decide,
    C10_rank_encoding qGrid (by decide) (by decide) (by decide)⟩

-- ===== Claims about the cell classifier =====

/-- C5: the occupancy decision classifies a cell as Empty iff both the
contrast-pixel ratio is below 0.15 and the max−min contrast spread is below
100; failing either conjunct yields Occupied. -/
theorem C5_empty_iff (cell : CellImage) (cell_color : String) :
    (is_cell_empty cell cell_color = true ↔
      contrastFrac cell cell_color < (3 : ℚ) / 20 ∧ contrastSpread cell < 100) ∧
    (is_cell_empty cell cell_color = false ↔
      (¬contrastFrac cell cell_color < (3 : ℚ) / 20 ∨ ¬contrastSpread cell < 100)) := by
  have h1 : is_cell_empty cell cell_color = true ↔
      contrastFrac cell cell_color < (3 : ℚ) / 20 ∧ contrastSpread cell < 100 := by
    simp [is_cell_empty]
  refine ⟨h1, ?_⟩
  rw [show (is_cell_empty cell cell_color = false) ↔
      ¬(is_cell_empty cell cell_color = true) by simp, h1, not_and_or]

/-- Every value of the piece-type heuristic is one of the five letters of
its decision table. -/
theorem guess_mem (cell : CellImage) (pc : Char) (cc : String) :
    guess_piece_type cell pc cc ∈ (['r', 'q', 'n', 'b', 'p'] : List Char) := by
  rcases hbb : cell.contourBB with _ | wh
  · simp only [guess_piece_type, hbb]
    decide
  · simp only [guess_piece_type, hbb]
    split_ifs <;> decide

/-- C6: on occupied cells with a detected contour, the piece-type heuristic
follows the fixed fill-ratio table (very high fill + tall box ⇒ rook, very
high fill otherwise ⇒ queen, high fill ⇒ knight, medium fill ⇒ bishop, else
pawn), and it never returns the king letter for any input whatsoever. -/
theorem C6_piece_table (cell : CellImage) (piece_color : Char) (cell_color : String) :
    guess_piece_type cell piece_color cell_color ≠ 'k' ∧
      ∀ w h, cell.contourBB = some (w, h) →
        ((fillFrac cell cell_color > (3 : ℚ) / 5 ∧ boxAspect w h > (6 : ℚ) / 5 →
            guess_piece_type cell piece_color cell_color = 'r') ∧
         (fillFrac cell cell_color > (3 : ℚ) / 5 ∧ ¬boxAspect w h > (6 : ℚ) / 5 →
            guess_piece_type cell piece_color cell_color = 'q') ∧
         (¬fillFrac cell cell_color > (3 : ℚ) / 5 ∧ fillFrac cell cell_color > (2 : ℚ) / 5 →
            guess_piece_type cell piece_color cell_color = 'n') ∧
         (¬fillFrac cell cell_color > (3 : ℚ) / 5 ∧ ¬fillFrac cell cell_color > (2 : ℚ) / 5 ∧
            fillFrac cell cell_color > (1 : ℚ) / 5 →
            guess_piece_type cell piece_color cell_color = 'b') ∧
         (¬fillFrac cell cell_color > (3 : ℚ) / 5 ∧ ¬fillFrac cell cell_color > (2 : ℚ) / 5 ∧
            ¬fillFrac cell cell_color > (1 : ℚ) / 5 →
            guess_piece_type cell piece_color cell_color = 'p')) := by
  constructor
  · have hm := guess_mem cell piece_color cell_color
    exact (by decide : ∀ c ∈ (['r', 'q', 'n', 'b', 'p'] : List Char), c ≠ 'k') _ hm
  · intro w h hbb
    have e : guess_piece_type cell piece_color cell_color =
        (if fillFrac cell cell_color > (3 : ℚ) / 5 then
          (if boxAspect w h > (6 : ℚ) / 5 then 'r' else 'q')
         else if fillFrac cell cell_color > (2 : ℚ) / 5 then 'n'
         else if fillFrac cell cell_color > (1 : ℚ) / 5 then 'b'
         else 'p') := by
      simp [guess_piece_type, hbb]
    refine ⟨?_, ?_, ?_, ?_, ?_⟩
    · rintro ⟨hA, hB⟩
      rw [e, if_pos hA, if_pos hB]
    · rintro ⟨hA, hB⟩
      rw [e, if_pos hA, if_neg hB]
    · rintro ⟨hA, hC⟩
      rw [e, if_neg hA, if_pos hC]
    · rintro ⟨hA, hC, hD⟩
      rw [e, if_neg hA, if_neg hC, if_pos hD]
    · rintro ⟨hA, hC, hD⟩
      rw [e, if_neg hA, if_neg hC, if_neg hD]

/-- The fill fraction of the concrete full cell is 1. -/
theorem cellTypeEx_fill : fillFrac cellTypeEx "light" = 1 := by
  have h1 : (if ("light" : String) = "light" then countLt cellTypeEx.gray 100
      else countGt cellTypeEx.gray 150) = 1 := by decide
  have h2 : totalPixels cellTypeEx.gray = 1 := by decide
  unfold fillFrac
  rw [h1, h2]
  norm_num

/-- C6 witness: the heuristic on a full tall-box cell returns the rook
letter and never the king letter. -/
theorem C6_piece_table_witness :
    cellTypeEx.contourBB = some (1, 2) ∧
      guess_piece_type cellTypeEx 'w' "light" ≠ 'k' ∧
      (fillFrac cellTypeEx "light" > (3 : ℚ) / 5 ∧ boxAspect 1 2 > (6 : ℚ) / 5) ∧
      guess_piece_type cellTypeEx 'w' "light" = 'r' := by
  have hc := C6_piece_table cellTypeEx 'w' "light"
  have hcond : fillFrac cellTypeEx "light" > (3 : ℚ) / 5 ∧ boxAspect 1 2 > (6 : ℚ) / 5 := by
    constructor
    · rw [cellTypeEx_fill]
      norm_num
    · unfold boxAspect
      norm_num
  exact ⟨rfl, hc.1, hcond, ((hc.2 1 2 rfl).1) hcond⟩

-- ===== Evaluation of the two concrete cells =====

theorem emptyEx_color : get_cell_color cellEmptyEx.gray = "dark" := by
  have h1 : pixelSum cellEmptyEx.gray = 0 := by decide
  have h2 : pixelCount cellEmptyEx.gray = 1 := by decide
  simp only [get_cell_color, meanGray, h1, h2]
  norm_num

theorem emptyEx_empty : is_cell_empty cellEmptyEx (get_cell_color cellEmptyEx.gray) = true := by
  rw [emptyEx_color]
  simp only [is_cell_empty, Bool.and_eq_true, decide_eq_true_eq]
  constructor
  · have h1 : contrastPixels cellEmptyEx "dark" = 0 := by decide
    have h2 : totalPixels cellEmptyEx.gray = 1 := by decide
    unfold contrastFrac
    rw [h1, h2]
    norm_num
  · have h3 : contrastSpread cellEmptyEx = 0 := by decide
    rw [h3]
    norm_num

theorem unknownEx_color : get_cell_color cellUnknownEx.gray = "light" := by
  have h1 : pixelSum cellUnknownEx.gray = 2080 := by decide
  have h2 : pixelCount cellUnknownEx.gray = 16 := by decide
  simp only [get_cell_color, meanGray, h1, h2]
  norm_num

theorem unknownEx_occupied :
    is_cell_empty cellUnknownEx (get_cell_color cellUnknownEx.gray) = false := by
  rw [unknownEx_color]
  have h1 : contrastPixels cellUnknownEx "light" = 8 := by decide
  have h2 : totalPixels cellUnknownEx.gray = 16 := by decide
  have hA : ¬contrastFrac cellUnknownEx "light" < (3 : ℚ) / 20 := by
    unfold contrastFrac
    rw [h1, h2]
    norm_num
  simp [is_cell_empty, hA]

theorem unknownEx_pc : get_piece_color cellUnknownEx (get_cell_color cellUnknownEx.gray) = '?' := by
  rw [unknownEx_color]
  have h1 : pixelSum (centerRegion cellUnknownEx.gray) = 520 := by decide
  have h2 : pixelCount (centerRegion cellUnknownEx.gray) = 4 := by decide
  simp only [get_piece_color, meanGray, h1, h2]
  norm_num

/-- C9: an occupied cell whose color classification is undetermined gets the
placeholder '?' as its board label, '?' is none of the twelve legal piece
letters, and the assembled position string contains exactly as many '?'
characters as the grid has '?' labels (so the placeholder survives assembly
verbatim and is never coerced to a cased piece letter). -/
theorem C9_unknown_preserved (cell : CellImage)
    (h1 : is_cell_empty cell (get_cell_color cell.gray) = false)
    (h2 : get_piece_color cell (get_cell_color cell.gray) = '?') :
    analyzeLabel (CellFile.present cell) = '?' ∧ '?' ∉ pieceLetters ∧
      ∀ grid : List (List Char), (∀ r ∈ grid, r.length ≤ 9) →
        (fen_position grid).count '?' = (grid.map (fun r => r.count '?')).sum := by
  refine ⟨?_, by decide, ?_⟩
  · simp [analyzeLabel, h1, h2]
  · intro grid hgrid
    unfold fen_position
    rw [joinSlash_count, List.map_map]
    refine congrArg List.sum ?_
    apply mapCongrOn
    intro r hr
    simp only [Function.comp_apply]
    exact fenRowGo_count r 0 (by have := hgrid r hr; omega)

/-- C9 witness: preservation of the placeholder on a concrete indeterminate
cell and a concrete grid containing '?'. -/
theorem C9_unknown_preserved_witness :
    is_cell_empty cellUnknownEx (get_cell_color cellUnknownEx.gray) = false ∧
      get_piece_color cellUnknownEx (get_cell_color cellUnknownEx.gray) = '?' ∧
      analyzeLabel (CellFile.present cellUnknownEx) = '?' ∧
      (fen_position qGrid).count '?' = (qGrid.map (fun r => r.count '?')).sum := by
  have hc := C9_unknown_preserved cellUnknownEx unknownEx_occupied unknownEx_pc
  exact ⟨unknownEx_occupied, unknownEx_pc, hc.1, hc.2.2 qGrid (by decide)⟩

-- ===== Helper lemmas: the summary counters =====

theorem typeLetter_facts : ∀ c ∈ (['r', 'q', 'n', 'b', 'p'] : List Char),
    c.toUpper ≠ '?' ∧ c.toLower ≠ '?' ∧ isPieceLabel c.toUpper = true ∧
      isPieceLabel c.toLower = true := by decide

theorem cellStep (cf : CellFile) (st : Counts) :
    ((countCell st cf).empty_count + (countCell st cf).white_count +
          (countCell st cf).black_count
        = st.empty_count + st.white_count + st.black_count +
            (if analyzeLabel cf = '?' then 0 else 1)) ∧
      ((countCell st cf).white_count + (countCell st cf).black_count
        = st.white_count + st.black_count +
            (if isPieceLabel (analyzeLabel cf) then 1 else 0)) := by
  cases cf with
  | missing =>
    constructor
    · simp [countCell, analyzeLabel]
    · simp [countCell, analyzeLabel, isPieceLabel]
  | present cell =>
    by_cases h1 : is_cell_empty cell (get_cell_color cell.gray) = true
    · have hl : analyzeLabel (CellFile.present cell) = '.' := by
        simp [analyzeLabel, h1]
      have hcnt : countCell st (CellFile.present cell) =
          ⟨st.empty_count + 1, st.white_count, st.black_count⟩ := by
        simp [countCell, h1]
      rw [hl, hcnt]
      constructor
      · rw [if_neg (by decide : ¬('.' : Char) = '?')]
        dsimp only
        omega
      · rw [show isPieceLabel '.' = false from by decide]
        dsimp only
        simp
    · have h1' : is_cell_empty cell (get_cell_color cell.gray) = false := by
        cases hb : is_cell_empty cell (get_cell_color cell.gray)
        · rfl
        · exact absurd hb h1
      by_cases h2 : get_piece_color cell (get_cell_color cell.gray) = 'w'
      · have hm := guess_mem cell (get_piece_color cell (get_cell_color cell.gray))
          (get_cell_color cell.gray)
        have hf := typeLetter_facts _ hm
        have hl : analyzeLabel (CellFile.present cell) =
            (guess_piece_type cell (get_piece_color cell (get_cell_color cell.gray))
              (get_cell_color cell.gray)).toUpper := by
          simp [analyzeLabel, h1', h2]
        have hcnt : countCell st (CellFile.present cell) =
            ⟨st.empty_count, st.white_count + 1, st.black_count⟩ := by
          simp [countCell, h1', h2]
        rw [hl, hcnt]
        constructor
        · rw [if_neg hf.1]
          dsimp only
          omega
        · rw [hf.2.2.1, if_pos rfl]
          dsimp only
          omega
      · by_cases h3 : get_piece_color cell (get_cell_color cell.gray) = 'b'
        · have hm := guess_mem cell (get_piece_color cell (get_cell_color cell.gray))
            (get_cell_color cell.gray)
          have hf := typeLetter_facts _ hm
          have hl : analyzeLabel (CellFile.present cell) =
              (guess_piece_type cell (get_piece_color cell (get_cell_color cell.gray))
                (get_cell_color cell.gray)).toLower := by
            simp [analyzeLabel, h1', h2, h3]
          have hcnt : countCell st (CellFile.present cell) =
              ⟨st.empty_count, st.white_count, st.black_count + 1⟩ := by
            simp [countCell, h1', h2, h3]
          rw [hl, hcnt]
          constructor
          · rw [if_neg hf.2.1]
            dsimp only
            omega
          · rw [hf.2.2.2, if_pos rfl]
            dsimp only
            omega
        · have hl : analyzeLabel (CellFile.present cell) = '?' := by
            simp [analyzeLabel, h1', h2, h3]
          have hcnt : countCell st (CellFile.present cell) = st := by
            simp [countCell, h1', h2, h3]
          rw [hl, hcnt]
          constructor
          · rw [if_pos rfl]
            omega
          · rw [show isPieceLabel '?' = false from by decide]
            simp

theorem countsInv : ∀ (cells : List CellFile) (st : Counts),
    ((cells.foldl countCell st).empty_count + (cells.foldl countCell st).white_count +
          (cells.foldl countCell st).black_count + (cells.map analyzeLabel).count '?'
        = st.empty_count + st.white_count + st.black_count + cells.length) ∧
      ((cells.foldl countCell st).white_count + (cells.foldl countCell st).black_count
        = st.white_count + st.black_count +
            ((cells.map analyzeLabel).filter isPieceLabel).length) := by
  intro cells
  induction cells with
  | nil => intro st; simp
  | cons cf rest ih =>
    intro st
    obtain ⟨s1, s2⟩ := cellStep cf st
    obtain ⟨i1, i2⟩ := ih (countCell st cf)
    simp only [List.foldl_cons, List.map_cons, List.length_cons]
    constructor
    · rw [List.count_cons]
      by_cases hq : analyzeLabel cf = '?'
      · rw [if_pos hq] at s1
        rw [hq]
        simp only [beq_self_eq_true, if_pos]
        omega
      · rw [if_neg hq] at s1
        rw [if_neg (by simpa using hq)]
        omega
    · rw [List.filter_cons]
      cases hpl : isPieceLabel (analyzeLabel cf)
      · rw [hpl] at s2
        simp only [Bool.false_eq_true, if_false] at s2 ⊢
        omega
      · rw [hpl] at s2
        simp only [if_pos, List.length_cons] at s2 ⊢
        omega

theorem emptyEx_label : analyzeLabel (CellFile.present cellEmptyEx) = '.' := by
  simp [analyzeLabel, emptyEx_empty]

theorem unknownEx_label : analyzeLabel (CellFile.present cellUnknownEx) = '?' := by
  simp [analyzeLabel, unknownEx_occupied, unknownEx_pc]

theorem emptyEx_count (st : Counts) : countCell st (CellFile.present cellEmptyEx) =
    ⟨st.empty_count + 1, st.white_count, st.black_count⟩ := by
  simp [countCell, emptyEx_empty]

theorem unknownEx_count (st : Counts) : countCell st (CellFile.present cellUnknownEx) = st := by
  simp [countCell, unknownEx_occupied, unknownEx_pc,
    show ¬('?' : Char) = 'w' from by decide, show ¬('?' : Char) = 'b' from by decide]

theorem foldl_emptyEx (n : ℕ) : ∀ st : Counts,
    (List.replicate n (CellFile.present cellEmptyEx)).foldl countCell st =
      ⟨st.empty_count + n, st.white_count, st.black_count⟩ := by
  induction n with
  | zero => intro st; simp
  | succ k ih =>
    intro st
    rw [List.replicate_succ, List.foldl_cons, emptyEx_count, ih]
    dsimp only
    simp [Counts.mk.injEq]
    omega

/-- C1: on a 64-cell input one of whose cells classifies to the unknown
placeholder, the three counters sum to 63, not 64, and white+black (= 0)
differs from the number of non-Empty labels (= 1): unknown-color cells are
counted by no counter. -/
theorem C1_counterexample :
    exCells.length = 64 ∧
      (analyzeCounts exCells).empty_count + (analyzeCounts exCells).white_count +
          (analyzeCounts exCells).black_count ≠ 64 ∧
      (analyzeCounts exCells).white_count + (analyzeCounts exCells).black_count
          ≠ ((boardLabels exCells).filter (fun c => !(c == '.'))).length := by
  have hc : analyzeCounts exCells = ⟨63, 0, 0⟩ := by
    unfold analyzeCounts exCells
    rw [List.foldl_append, foldl_emptyEx]
    simp [unknownEx_count]
  have hb : boardLabels exCells = List.replicate 63 '.' ++ ['?'] := by
    unfold boardLabels exCells
    rw [List.map_append, List.map_replicate, emptyEx_label]
    simp [unknownEx_label]
  refine ⟨by decide, ?_, ?_⟩
  · rw [hc]
    decide
  · rw [hc, hb]
    decide

/-- C1 (amended): for every 64-cell input,
`empty_count + white_count + black_count + (number of '?' labels) = 64`, and
`white_count + black_count` equals the number of labels that are neither the
Empty dot nor the '?' placeholder; the claimed equations hold exactly when
no cell gets the unknown placeholder. -/
theorem C1_counts_amended (cells : List CellFile) (h : cells.length = 64) :
    (analyzeCounts cells).empty_count + (analyzeCounts cells).white_count +
        (analyzeCounts cells).black_count + (boardLabels cells).count '?' = 64 ∧
      (analyzeCounts cells).white_count + (analyzeCounts cells).black_count
        = ((boardLabels cells).filter isPieceLabel).length := by
  obtain ⟨i1, i2⟩ := countsInv cells ⟨0, 0, 0⟩
  unfold analyzeCounts boardLabels
  constructor
  · rw [i1]
    dsimp only
    omega
  · rw [i2]
    dsimp only
    omega

/-- C1 witness: the amended counter invariant on 64 empty cells. -/
theorem C1_counts_amended_witness :
    fullEmptyCells.length = 64 ∧
      ((analyzeCounts fullEmptyCells).empty_count + (analyzeCounts fullEmptyCells).white_count +
          (analyzeCounts fullEmptyCells).black_count +
            (boardLabels fullEmptyCells).count '?' = 64 ∧
        (analyzeCounts fullEmptyCells).white_count + (analyzeCounts fullEmptyCells).black_count
          = ((boardLabels fullEmptyCells).filter isPieceLabel).length) :=
  ⟨by decide, C1_counts_amended fullEmptyCells (by decide)⟩

-- ===== Claims about the rectification step =====

/-- C7: on a degenerate quadrilateral (four collinear corner points) the
rectification step still produces a warped board image; no
RectificationFailed error exists in the code, so the claimed error is never
surfaced. -/
theorem C7_counterexample :
    (∀ p ∈ collinearPts, p.2 = p.1) ∧
      rectifyStep (fun _ _ => ()) (fun (img : ℕ) _ _ => img + 1) 0 collinearPts = some 1 := by
  constructor
  · decide
  · rfl

/-- C7 (amended): the rectification step is total and unconditional: for
every input image and every list of corner points, degenerate or not, and
for every behavior of the external transform and warp library calls, it
produces a warped board and never an error. -/
theorem C7_total_amended {Img Mat : Type} (getTransform : OrderedQuad → List Point → Mat)
    (warp : Img → Mat → ℤ × ℤ → Img) (image : Img) (pts : List Point) :
    (rectifyStep getTransform warp image pts).isSome = true := rfl
